import Mathlib

/-!
Verification of the hrmm metrics dashboard core: the fixed-capacity ring
buffer with its statistics (package `internal/buffer`) and the poll-and-ingest
state machine of the `graph` command (`dashboardModel`).

Modelling conventions:
* Go `float64` is modelled by `GoFloat` (an exact rational for finite values,
  plus distinct NaN / +Inf / -Inf tags) where non-finite values matter, and by
  `ℚ` in the statistics, whose claims are about exact real arithmetic; float
  rounding is abstracted away.
* Go slices become `List`; in-range writes use `List.set`, reads `List.getD`.
  The well-formedness `RingBuffer.Inv` (established by `New`, preserved by
  `Push`) keeps every source index in range, exactly as in the Go code.
* Go machine integers are modelled by `Nat`/`Int`; the source's index
  arithmetic `(head - size + capacity) % capacity` is non-negative whenever
  `size <= capacity`, so it is written `(head + capacity - size) % capacity`.
* The bubbletea messages and commands of the dashboard become the sum types
  `Msg` and `Cmd`; `time.Now()` inside `Update` becomes an explicit `now`
  argument; the chart (`ntcharts`), the list UI and the fetcher are external
  collaborators and are not part of the verified state.
-/

/-- Go float64 sample values: finite values are exact rationals; NaN and the
two infinities are separate tags (their arithmetic never matters here, only
the `math.IsNaN` / `math.IsInf` tests the dashboard performs). -/
inductive GoFloat where
  | finite (q : ℚ)
  | nan
  | inf
  | neginf
deriving DecidableEq

/-- math.IsNaN. -/
def GoFloat.isNaN : GoFloat → Bool
  | GoFloat.nan => true
  | _ => false

/-- math.IsInf(v, 0): reports either infinity. -/
def GoFloat.isInf : GoFloat → Bool
  | GoFloat.inf => true
  | GoFloat.neginf => true
  | _ => false

instance : Inhabited GoFloat := ⟨GoFloat.finite 0⟩

/-- RingBuffer stores a fixed number of values in FIFO order (source:
internal/buffer/ringbuffer.go). `data` is the backing slice of length
`capacity`, `head` the next write position, `size` the current number of
elements. Values are a type parameter: the Go code stores float64 and never
inspects the values in these core operations. -/
structure RingBuffer (α : Type) where
  data : List α
  capacity : Nat
  head : Nat
  size : Nat
deriving DecidableEq

/-- buffer.New: a fresh buffer over a zero-filled backing slice (Go's
`make([]float64, capacity)`); `default` plays the element zero value. -/
def RingBuffer.New (α : Type) [Inhabited α] (capacity : Nat) : RingBuffer α :=
  { data := List.replicate capacity default
    capacity := capacity
    head := 0
    size := 0 }

/-- Push adds a value to the buffer, overwriting the oldest if at capacity. -/
def RingBuffer.Push {α : Type} (rb : RingBuffer α) (value : α) : RingBuffer α :=
  { rb with
    data := rb.data.set rb.head value
    head := (rb.head + 1) % rb.capacity
    size := if rb.size < rb.capacity then rb.size + 1 else rb.size }

/-- Values returns all values in chronological order (oldest first), nil when
the buffer is empty. -/
def RingBuffer.Values {α : Type} [Inhabited α] (rb : RingBuffer α) : List α :=
  if rb.size = 0 then []
  else
    let start := (rb.head + rb.capacity - rb.size) % rb.capacity
    (List.range rb.size).map (fun i => rb.data.getD ((start + i) % rb.capacity) default)

/-- Len returns the current number of elements in the buffer. -/
def RingBuffer.Len {α : Type} (rb : RingBuffer α) : Nat := rb.size

/-- Latest returns the most recently pushed value, or absence if empty (the
Go `(float64, bool)` pair becomes an `Option`). -/
def RingBuffer.Latest {α : Type} [Inhabited α] (rb : RingBuffer α) : Option α :=
  if rb.size = 0 then none
  else some (rb.data.getD ((rb.head + rb.capacity - 1) % rb.capacity) default)

/-- Min returns the minimum value in the buffer, or absence if empty: a scan
of `Values()` keeping the smaller element. -/
def RingBuffer.Min (rb : RingBuffer ℚ) : Option ℚ :=
  if rb.size = 0 then none
  else
    let values := rb.Values
    some (values.tail.foldl (fun m v => if v < m then v else m) (values.headD 0))

/-- Max returns the maximum value in the buffer, or absence if empty. -/
def RingBuffer.Max (rb : RingBuffer ℚ) : Option ℚ :=
  if rb.size = 0 then none
  else
    let values := rb.Values
    some (values.tail.foldl (fun m v => if m < v then v else m) (values.headD 0))

/-- Avg returns the average of all values in the buffer, or absence if empty. -/
def RingBuffer.Avg (rb : RingBuffer ℚ) : Option ℚ :=
  if rb.size = 0 then none
  else
    let values := rb.Values
    some (values.sum / (values.length : ℚ))

/-- Trend returns 1 (up), -1 (down), or 0 (flat): it compares the average of
the first window against the average of the last window of `Values()`, with a
window of 3 shrunk to `n / 2` (at least 1) on short buffers, and a threshold
of 5 percent of the first average, at least 0.01. -/
def RingBuffer.Trend (rb : RingBuffer ℚ) : Int :=
  if rb.size < 2 then 0
  else
    let values := rb.Values
    let n := values.length
    let windowSize := 3
    let windowSize := if n < windowSize * 2 then n / 2 else windowSize
    let windowSize := if windowSize < 1 then 1 else windowSize
    let firstAvg := (values.take windowSize).sum / (windowSize : ℚ)
    let lastAvg := (values.drop (n - windowSize)).sum / (windowSize : ℚ)
    let threshold := firstAvg * (5 / 100)
    let threshold := if threshold < 1 / 100 then 1 / 100 else threshold
    let diff := lastAvg - firstAvg
    if diff > threshold then 1
    else if diff < -threshold then -1
    else 0

/-- Modelled from the spec: the implementation of RingBuffer.Percentile is not
under src (only ringbuffer_test.go calls it). Spec 4.1: absent when `p < 0`,
`p > 100` or the buffer is empty; otherwise sort the contents ascending, take
the fractional rank `r = (p/100) * (n-1)`, `lo = floor r`, `hi = ceil r`,
`frac = r - lo`, and interpolate `sorted[lo]*(1-frac) + sorted[hi]*frac`. -/
def RingBuffer.Percentile (rb : RingBuffer ℚ) (p : ℚ) : Option ℚ :=
  if p < 0 ∨ p > 100 ∨ rb.size = 0 then none
  else
    let sorted := rb.Values.mergeSort (fun a b => a ≤ b)
    let n := sorted.length
    let r := (p / 100) * ((n : ℚ) - 1)
    let lo := ⌊r⌋
    let hi := ⌈r⌉
    let frac := r - (lo : ℚ)
    some (sorted.getD lo.toNat 0 * (1 - frac) + sorted.getD hi.toNat 0 * frac)

/-- The last `n` elements of a list (the whole list when it is shorter): the
logical contents a capacity-`n` ring buffer retains. -/
def lastN {α : Type} (n : Nat) (l : List α) : List α := l.drop (l.length - n)

/-- Folding Push over a list of samples, oldest first. -/
def RingBuffer.pushAll {α : Type} (rb : RingBuffer α) (xs : List α) : RingBuffer α :=
  xs.foldl RingBuffer.Push rb

/-- Well-formedness of a buffer: what `New` (with positive capacity)
establishes and `Push` preserves; it keeps every index the source computes in
range of the backing slice. -/
def RingBuffer.Inv {α : Type} (rb : RingBuffer α) : Prop :=
  1 ≤ rb.capacity ∧ rb.data.length = rb.capacity ∧
    rb.head < rb.capacity ∧ rb.size ≤ rb.capacity

instance {α : Type} (rb : RingBuffer α) : Decidable rb.Inv := by
  unfold RingBuffer.Inv
  infer_instance

/-- fetcher.MetricData as consumed by the dashboard. The fetcher package is an
external collaborator (not under src); only the fields the dashboard reads are
modelled, with `Value` (Go's NullableFloat64, converted by `float64(...)` at
the use site) as a `GoFloat`. -/
structure MetricData where
  Name : String
  Value : GoFloat
  Help : String
deriving DecidableEq

/-- The commands Init and Update hand back to the bubbletea runtime,
abstracting the tea.Cmd closures the source constructs: `pollTick` is
`tea.Tick(m.interval, ...)` (arms the interval clock once), `fetchMetrics` the
asynchronous fetch command, `batch` is `tea.Batch`, `quit` is `tea.Quit`, and
`none` the nil command. -/
inductive Cmd where
  | none
  | quit
  | fetchMetrics
  | pollTick
  | batch (c₁ c₂ : Cmd)
deriving DecidableEq

/-- Whether running a command (re-)arms the interval clock. -/
def Cmd.armsClock : Cmd → Bool
  | Cmd.pollTick => true
  | Cmd.batch c₁ c₂ => c₁.armsClock || c₂.armsClock
  | _ => false

/-- Whether running a command issues a metrics fetch. -/
def Cmd.issuesFetch : Cmd → Bool
  | Cmd.fetchMetrics => true
  | Cmd.batch c₁ c₂ => c₁.issuesFetch || c₂.issuesFetch
  | _ => false

/-- The messages the dashboard Update handles: key presses, terminal resizes,
`tickMsg` (the clock fired) and `metricsMsg` (a fetch completed with either a
batch or an error). -/
inductive Msg where
  | key (s : String)
  | windowSize (width height : Int)
  | tick (t : Nat)
  | metrics (data : List MetricData) (err : Option String)
deriving DecidableEq

/-- dashboardModel: the dashboard view state. `graphs` is the Go
`map[string]*metricGraph` as an association list from series name to its ring
buffer (the chart inside metricGraph is external rendering state); `lastFetch`
is `none` for Go's zero time.Time; the fetchers are external collaborators
whose outcomes are supplied to `fetchMetricsRun`. -/
structure dashboardModel where
  selectedMetrics : List String
  graphs : List (String × RingBuffer GoFloat)
  width : Int
  height : Int
  interval : Nat
  lastFetch : Option Nat
  lastError : Option String
deriving DecidableEq

/-- pollTick: builds the command that sleeps one interval and then delivers a
tickMsg. -/
def dashboardModel.pollTick (_ : dashboardModel) : Cmd := Cmd.pollTick

/-- fetchMetrics: builds the asynchronous fetch command. -/
def dashboardModel.fetchMetrics (_ : dashboardModel) : Cmd := Cmd.fetchMetrics

/-- Init returns tea.Batch(m.pollTick(), m.fetchMetrics()): the first fetch
and the interval clock start concurrently. -/
def dashboardModel.Init (m : dashboardModel) : Cmd :=
  Cmd.batch m.pollTick m.fetchMetrics

/-- The body of the fetchMetrics closure, which loops over the fetchers and
returns on the first error: `results` is the outcome of each external
fetcher's `Fetch()` call in order, `allData` the accumulator. The returned
pair is the `metricsMsg` (data, err). -/
def fetchMetricsAux : List (Except String (List MetricData)) → List MetricData →
    List MetricData × Option String
  | [], allData => (allData, none)
  | Except.error e :: _, _ => ([], some e)
  | Except.ok data :: rest, allData => fetchMetricsAux rest (allData ++ data)

/-- Running the fetchMetrics command against the given per-fetcher outcomes. -/
def dashboardModel.fetchMetricsRun (results : List (Except String (List MetricData))) :
    List MetricData × Option String :=
  fetchMetricsAux results []

/-- Update one graph entry in place, the write through the `*metricGraph`
pointer held in the Go map (map keys are unique; the first match is the
entry). -/
def updateGraph (name : String) (f : RingBuffer GoFloat → RingBuffer GoFloat) :
    List (String × RingBuffer GoFloat) → List (String × RingBuffer GoFloat)
  | [] => []
  | (n, rb) :: rest =>
    if n = name then (n, f rb) :: rest
    else (n, rb) :: updateGraph name f rest

/-- One iteration of the metricsMsg ingest loop: skip names with no graph,
skip NaN/Inf values, otherwise push into the matching buffer (the chart push
is external rendering). -/
def dashboardModel.ingestOne (graphs : List (String × RingBuffer GoFloat))
    (metric : MetricData) : List (String × RingBuffer GoFloat) :=
  if (graphs.lookup metric.Name).isSome then
    if metric.Value.isNaN || metric.Value.isInf then graphs
    else updateGraph metric.Name (fun rb => rb.Push metric.Value) graphs
  else graphs

/-- The whole metricsMsg ingest loop over the delivered batch, in order. -/
def dashboardModel.ingest (graphs : List (String × RingBuffer GoFloat))
    (data : List MetricData) : List (String × RingBuffer GoFloat) :=
  data.foldl dashboardModel.ingestOne graphs

/-- dashboardModel.Update: the dashboard step function. `now` is the value
`time.Now()` yields while the metricsMsg branch runs. Chart resizing and
redrawing on WindowSizeMsg are external rendering and carry no verified
state. -/
def dashboardModel.Update (m : dashboardModel) (msg : Msg) (now : Nat) :
    dashboardModel × Cmd :=
  match msg with
  | Msg.key s =>
    if s = "ctrl+c" || s = "q" then (m, Cmd.quit) else (m, Cmd.none)
  | Msg.windowSize w h => ({ m with width := w, height := h }, Cmd.none)
  | Msg.tick _ => (m, m.fetchMetrics)
  | Msg.metrics data err =>
    let m1 := { m with lastFetch := some now }
    match err with
    | some e => ({ m1 with lastError := some e }, m1.pollTick)
    | none =>
      ({ m1 with
          lastError := none
          graphs := dashboardModel.ingest m1.graphs data }, m1.pollTick)

/-- The finite values a given series receives from a batch, in batch order:
entries whose name matches and whose value is neither NaN nor infinite. -/
def finiteValuesFor (n : String) : List MetricData → List GoFloat
  | [] => []
  | md :: rest =>
    if md.Name = n ∧ (md.Value.isNaN || md.Value.isInf) = false
    then md.Value :: finiteValuesFor n rest
    else finiteValuesFor n rest

/-- Trend as the specification words it: `w = min(3, n/2)` and at least 1,
`threshold = max(0.05 * firstMean, 0.01)`, up when `lastMean - firstMean`
exceeds the threshold, down when it is below its negation, flat otherwise,
and flat with fewer than 2 elements. -/
def RingBuffer.TrendSpec (rb : RingBuffer ℚ) : Int :=
  if rb.Len < 2 then 0
  else
    let values := rb.Values
    let n := values.length
    let w := max (min 3 (n / 2)) 1
    let firstMean := (values.take w).sum / (w : ℚ)
    let lastMean := (values.drop (n - w)).sum / (w : ℚ)
    let threshold := max ((5 / 100) * firstMean) (1 / 100)
    if lastMean - firstMean > threshold then 1
    else if lastMean - firstMean < -threshold then -1
    else 0

/-! State-passing translations of the Go pointer-receiver methods: the first
component is the receiver as the method body leaves it, the second the return
value. The read methods' bodies contain no assignment to any receiver field,
so their final receiver is the input one; `Push` is the only method that
writes. These make the frame claim about mutation explicit. -/

def RingBuffer.PushSt {α : Type} (rb : RingBuffer α) (v : α) : RingBuffer α × Unit :=
  (rb.Push v, ())

def RingBuffer.ValuesSt {α : Type} [Inhabited α] (rb : RingBuffer α) :
    RingBuffer α × List α :=
  (rb, rb.Values)

def RingBuffer.LenSt {α : Type} (rb : RingBuffer α) : RingBuffer α × Nat :=
  (rb, rb.Len)

def RingBuffer.LatestSt {α : Type} [Inhabited α] (rb : RingBuffer α) :
    RingBuffer α × Option α :=
  (rb, rb.Latest)

def RingBuffer.MinSt (rb : RingBuffer ℚ) : RingBuffer ℚ × Option ℚ :=
  (rb, rb.Min)

def RingBuffer.MaxSt (rb : RingBuffer ℚ) : RingBuffer ℚ × Option ℚ :=
  (rb, rb.Max)

def RingBuffer.AvgSt (rb : RingBuffer ℚ) : RingBuffer ℚ × Option ℚ :=
  (rb, rb.Avg)

def RingBuffer.TrendSt (rb : RingBuffer ℚ) : RingBuffer ℚ × Int :=
  (rb, rb.Trend)

/-! Part: Basic facts about the ring buffer embedding -/

/-- Adding a nonzero amount below the modulus moves every residue. -/
theorem add_mod_ne_self {C a t : Nat} (ha : a < C) (ht1 : 0 < t) (ht2 : t < C) :
    (a + t) % C ≠ a := by
  intro h
  rcases Nat.lt_or_ge (a + t) C with h' | h'
  · rw [Nat.mod_eq_of_lt h'] at h
    omega
  · have h2 : a + t - C < C := by omega
    rw [Nat.mod_eq_sub_mod h', Nat.mod_eq_of_lt h2] at h
    omega

theorem getD_set_self {α : Type} [Inhabited α] (d : List α) (j : Nat) (v : α)
    (h : j < d.length) : (d.set j v).getD j default = v := by
  rw [List.getD_eq_getElem?_getD, List.getElem?_set, if_pos rfl, if_pos h]
  rfl

theorem getD_set_ne {α : Type} [Inhabited α] (d : List α) (i j : Nat) (v : α)
    (h : i ≠ j) : (d.set i v).getD j default = d.getD j default := by
  rw [List.getD_eq_getElem?_getD, List.getElem?_set_ne h, ← List.getD_eq_getElem?_getD]

theorem RingBuffer.values_length {α : Type} [Inhabited α] (rb : RingBuffer α) :
    rb.Values.length = rb.size := by
  unfold RingBuffer.Values
  split
  · simp only [List.length_nil]
    omega
  · simp

theorem RingBuffer.values_getElem {α : Type} [Inhabited α] (rb : RingBuffer α)
    (i : Nat) (h : i < rb.Values.length) :
    rb.Values[i] =
      rb.data.getD
        (((rb.head + rb.capacity - rb.size) % rb.capacity + i) % rb.capacity) default := by
  have hs : ¬ rb.size = 0 := by
    intro h0
    rw [rb.values_length, h0] at h
    omega
  simp only [RingBuffer.Values, if_neg hs, List.getElem_map, List.getElem_range]

theorem RingBuffer.push_capacity {α : Type} (rb : RingBuffer α) (v : α) :
    (rb.Push v).capacity = rb.capacity := rfl

theorem RingBuffer.push_size {α : Type} (rb : RingBuffer α) (v : α) :
    (rb.Push v).size = if rb.size < rb.capacity then rb.size + 1 else rb.size := rfl

theorem RingBuffer.inv_new {α : Type} [Inhabited α] (C : Nat) (hC : 1 ≤ C) :
    (RingBuffer.New α C).Inv := by
  refine ⟨hC, ?_, ?_, ?_⟩ <;>
    simp only [RingBuffer.New, List.length_replicate] <;> omega

theorem RingBuffer.inv_push {α : Type} {rb : RingBuffer α} (h : rb.Inv) (v : α) :
    (rb.Push v).Inv := by
  obtain ⟨h1, h2, h3, h4⟩ := h
  refine ⟨h1, ?_, ?_, ?_⟩
  · simpa [RingBuffer.Push] using h2
  · simpa [RingBuffer.Push] using Nat.mod_lt _ (show 0 < rb.capacity by omega)
  · simp only [RingBuffer.Push]
    split <;> omega

/-- The last `n` elements of a list never exceed the list itself. -/
theorem lastN_of_le {α : Type} (n : Nat) (l : List α) (h : l.length ≤ n) :
    lastN n l = l := by
  unfold lastN
  rw [Nat.sub_eq_zero_of_le h, List.drop_zero]

theorem lastN_length {α : Type} (n : Nat) (l : List α) :
    (lastN n l).length = min n l.length := by
  unfold lastN
  rw [List.length_drop]
  omega

/-- One Push turns the retained contents `Values()` into the last `capacity`
elements of the old contents extended by the new value. -/
theorem RingBuffer.push_values {α : Type} [Inhabited α] (rb : RingBuffer α) (v : α)
    (hinv : rb.Inv) :
    (rb.Push v).Values = lastN rb.capacity (rb.Values ++ [v]) := by
  obtain ⟨hC, hdata, hhead, hsize⟩ := hinv
  have hlenV : rb.Values.length = rb.size := rb.values_length
  have hlen1 : (rb.Push v).Values.length = min (rb.size + 1) rb.capacity := by
    rw [(rb.Push v).values_length, rb.push_size]
    split <;> omega
  have hlen2 : (lastN rb.capacity (rb.Values ++ [v])).length
      = min (rb.size + 1) rb.capacity := by
    rw [lastN_length, List.length_append, hlenV]
    simp only [List.length_singleton]
    omega
  apply List.ext_getElem (by omega)
  intro i h1 h2
  have hi : i < min (rb.size + 1) rb.capacity := by omega
  have hb1 : rb.size + 1 - rb.capacity + i < (rb.Values ++ [v]).length := by
    rw [List.length_append, hlenV, List.length_singleton]
    omega
  have hb2 : i < (lastN rb.capacity (rb.Values ++ [v])).length := h2
  -- the right-hand side is an element of a drop of an append
  have hrhs : (lastN rb.capacity (rb.Values ++ [v]))[i]
      = (rb.Values ++ [v])[rb.size + 1 - rb.capacity + i] := by
    simp only [lastN, List.getElem_drop, List.length_append, hlenV,
      List.length_singleton]
  rw [hrhs, (rb.Push v).values_getElem i (by omega)]
  rcases Nat.lt_or_ge rb.size rb.capacity with hsC | hsC
  · -- buffer not yet full: the push appends at the logical end
    have hsz : (rb.Push v).size = rb.size + 1 := by
      rw [rb.push_size, if_pos hsC]
    have hstart : ((rb.Push v).head + (rb.Push v).capacity - (rb.Push v).size)
          % (rb.Push v).capacity
        = (rb.head + rb.capacity - rb.size) % rb.capacity := by
      rw [hsz, rb.push_capacity]
      show ((rb.head + 1) % rb.capacity + rb.capacity - (rb.size + 1)) % rb.capacity = _
      rcases Nat.lt_or_ge (rb.head + 1) rb.capacity with hh | hh
      · rw [Nat.mod_eq_of_lt hh]
        congr 1
        omega
      · have he : rb.head + 1 = rb.capacity := by omega
        rw [he, Nat.mod_self]
        have e1 : 0 + rb.capacity - (rb.size + 1) = rb.capacity - rb.size - 1 := by omega
        rw [e1, Nat.mod_eq_of_lt (by omega)]
        have e2 : rb.head + rb.capacity - rb.size
            = rb.capacity + (rb.capacity - rb.size - 1) := by omega
        rw [e2, Nat.add_mod_left, Nat.mod_eq_of_lt (by omega)]
    rw [hstart, rb.push_capacity]
    have hk : rb.size + 1 - rb.capacity + i = i := by omega
    simp only [hk]
    rcases Nat.lt_or_ge i rb.size with his | his
    · -- an old element, unmoved
      rw [List.getElem_append_left (by omega)]
      rw [rb.values_getElem i (by omega)]
      show (rb.data.set rb.head v).getD _ default = _
      have harg : ((rb.head + rb.capacity - rb.size) % rb.capacity + i) % rb.capacity
          = (rb.head + (rb.capacity - (rb.size - i))) % rb.capacity := by
        rw [Nat.mod_add_mod]
        congr 1
        omega
      rw [harg]
      have hne : (rb.head + (rb.capacity - (rb.size - i))) % rb.capacity ≠ rb.head :=
        add_mod_ne_self hhead (by omega) (by omega)
      rw [getD_set_ne _ _ _ _ (fun he => hne he.symm)]
    · -- the freshly pushed element
      have hieq : i = rb.size := by omega
      rw [List.getElem_append_right (by omega)]
      simp only [hlenV, hieq, Nat.sub_self, List.getElem_singleton]
      show (rb.data.set rb.head v).getD _ default = v
      have harg : ((rb.head + rb.capacity - rb.size) % rb.capacity + rb.size) % rb.capacity
          = rb.head := by
        rw [Nat.mod_add_mod]
        have e : rb.head + rb.capacity - rb.size + rb.size = rb.head + rb.capacity := by
          omega
        rw [e, Nat.add_mod_right, Nat.mod_eq_of_lt hhead]
      rw [harg]
      exact getD_set_self _ _ _ (by omega)
  · -- buffer full: the push drops the oldest element
    have hseq : rb.size = rb.capacity := by omega
    have hsz : (rb.Push v).size = rb.capacity := by
      rw [rb.push_size, if_neg (by omega)]
      omega
    have hstart : ((rb.Push v).head + (rb.Push v).capacity - (rb.Push v).size)
          % (rb.Push v).capacity
        = (rb.head + 1) % rb.capacity := by
      rw [hsz, rb.push_capacity]
      show ((rb.head + 1) % rb.capacity + rb.capacity - rb.capacity) % rb.capacity = _
      have e : (rb.head + 1) % rb.capacity + rb.capacity - rb.capacity
          = (rb.head + 1) % rb.capacity := by omega
      rw [e, Nat.mod_mod_of_dvd _ dvd_rfl]
    rw [hstart, rb.push_capacity]
    have hk : rb.size + 1 - rb.capacity + i = 1 + i := by omega
    simp only [hk]
    rcases Nat.lt_or_ge i (rb.capacity - 1) with hic | hic
    · -- an old element shifted one position towards the front
      rw [List.getElem_append_left (by omega)]
      rw [rb.values_getElem (1 + i) (by omega)]
      have harg1 : ((rb.head + 1) % rb.capacity + i) % rb.capacity
          = (rb.head + (1 + i)) % rb.capacity := by
        rw [Nat.mod_add_mod]
        congr 1
        omega
      have harg2 : ((rb.head + rb.capacity - rb.size) % rb.capacity + (1 + i))
            % rb.capacity
          = (rb.head + (1 + i)) % rb.capacity := by
        rw [Nat.mod_add_mod]
        congr 1
        omega
      rw [harg1, harg2]
      have hne : (rb.head + (1 + i)) % rb.capacity ≠ rb.head :=
        add_mod_ne_self hhead (by omega) (by omega)
      exact getD_set_ne _ _ _ _ (fun he => hne he.symm)
    · -- the freshly pushed element at the logical end
      have hieq : i = rb.capacity - 1 := by omega
      rw [List.getElem_append_right (by rw [hlenV]; omega)]
      simp only [hlenV]
      have hidx : 1 + i - rb.size = 0 := by omega
      simp only [hidx, List.getElem_singleton]
      have harg : ((rb.head + 1) % rb.capacity + i) % rb.capacity = rb.head := by
        rw [Nat.mod_add_mod, hieq]
        have e : rb.head + 1 + (rb.capacity - 1) = rb.head + rb.capacity := by omega
        rw [e, Nat.add_mod_right, Nat.mod_eq_of_lt hhead]
      rw [harg]
      exact getD_set_self _ _ _ (by omega)

/-- Retaining the last `C` elements commutes with later appends. -/
theorem lastN_absorb {α : Type} (C : Nat) (l xs : List α) :
    lastN C (lastN C l ++ xs) = lastN C (l ++ xs) := by
  unfold lastN
  simp only [List.length_append, List.length_drop]
  rw [List.drop_append_eq_append_drop, List.drop_append_eq_append_drop,
    List.drop_drop]
  simp only [List.length_drop]
  congr 1
  · congr 1
    omega
  · congr 1
    omega

theorem RingBuffer.pushAll_nil {α : Type} (rb : RingBuffer α) : rb.pushAll [] = rb := rfl

theorem RingBuffer.pushAll_cons {α : Type} (rb : RingBuffer α) (x : α) (xs : List α) :
    rb.pushAll (x :: xs) = (rb.Push x).pushAll xs := rfl

theorem RingBuffer.pushAll_append {α : Type} (rb : RingBuffer α) (xs ys : List α) :
    rb.pushAll (xs ++ ys) = (rb.pushAll xs).pushAll ys := by
  unfold RingBuffer.pushAll
  exact List.foldl_append ..

/-- Pushing a whole list of samples: the invariant is preserved, the capacity
is unchanged, and the contents are the last `capacity` elements of the old
contents followed by the new samples. -/
theorem RingBuffer.pushAll_values {α : Type} [Inhabited α] (xs : List α)
    (rb : RingBuffer α) (h : rb.Inv) :
    (rb.pushAll xs).Values = lastN rb.capacity (rb.Values ++ xs) ∧
      (rb.pushAll xs).Inv ∧ (rb.pushAll xs).capacity = rb.capacity := by
  induction xs generalizing rb with
  | nil =>
    refine ⟨?_, h, rfl⟩
    rw [RingBuffer.pushAll_nil, List.append_nil,
      lastN_of_le _ _ (by rw [rb.values_length]; exact h.2.2.2)]
  | cons x xs ih =>
    obtain ⟨ihv, ihinv, ihcap⟩ := ih (rb.Push x) (RingBuffer.inv_push h x)
    refine ⟨?_, ihinv, by rw [rb.pushAll_cons, ihcap, rb.push_capacity]⟩
    rw [rb.pushAll_cons, ihv, rb.push_capacity, rb.push_values x h, lastN_absorb,
      List.append_assoc, List.singleton_append]

/-- Contents of a fresh buffer after any sequence of pushes: the last
`capacity` samples, oldest first. -/
theorem RingBuffer.new_pushAll_values {α : Type} [Inhabited α] (C : Nat) (hC : 1 ≤ C)
    (xs : List α) :
    ((RingBuffer.New α C).pushAll xs).Values = lastN C xs ∧
      ((RingBuffer.New α C).pushAll xs).Len = min xs.length C := by
  obtain ⟨hv, hinv, hcap⟩ :=
    RingBuffer.pushAll_values xs (RingBuffer.New α C) (RingBuffer.inv_new C hC)
  have hnewv : (RingBuffer.New α C).Values = [] := rfl
  have hcC : (RingBuffer.New α C).capacity = C := rfl
  rw [hnewv, List.nil_append, hcC] at hv
  refine ⟨hv, ?_⟩
  rw [RingBuffer.Len, ← RingBuffer.values_length, hv, lastN_length]
  omega

/-- Latest() right after a Push is the pushed value. -/
theorem RingBuffer.push_latest {α : Type} [Inhabited α] (rb : RingBuffer α) (v : α)
    (h : rb.Inv) : (rb.Push v).Latest = some v := by
  obtain ⟨hC, hdata, hhead, hsize⟩ := h
  have hs : ¬ (rb.Push v).size = 0 := by
    rw [rb.push_size]
    split <;> omega
  unfold RingBuffer.Latest
  rw [if_neg hs, rb.push_capacity]
  have harg : ((rb.Push v).head + rb.capacity - 1) % rb.capacity = rb.head := by
    show ((rb.head + 1) % rb.capacity + rb.capacity - 1) % rb.capacity = rb.head
    have e : (rb.head + 1) % rb.capacity + rb.capacity - 1
        = (rb.head + 1) % rb.capacity + (rb.capacity - 1) := by omega
    rw [e, Nat.mod_add_mod]
    have e2 : rb.head + 1 + (rb.capacity - 1) = rb.head + rb.capacity := by omega
    rw [e2, Nat.add_mod_right, Nat.mod_eq_of_lt hhead]
  rw [harg]
  show some ((rb.data.set rb.head v).getD rb.head default) = some v
  rw [getD_set_self _ _ _ (by omega)]

/-! Part: Facts about the dashboard step function -/

theorem updateGraph_lookup (name : String) (f : RingBuffer GoFloat → RingBuffer GoFloat)
    (gs : List (String × RingBuffer GoFloat)) (n : String) :
    (updateGraph name f gs).lookup n
      = if n = name then (gs.lookup n).map f else gs.lookup n := by
  induction gs with
  | nil =>
    simp only [updateGraph, List.lookup_nil, Option.map_none']
    split <;> rfl
  | cons p rest ih =>
    obtain ⟨k, rb⟩ := p
    by_cases hk : k = name
    · subst hk
      simp only [updateGraph, if_pos rfl]
      by_cases hn : n = k
      · subst hn
        simp [List.lookup_cons]
      · have hb : (n == k) = false := by simp [hn]
        simp [List.lookup_cons, hb, hn]
    · simp only [updateGraph, if_neg hk]
      by_cases hn : n = k
      · subst hn
        have hnk : ¬ n = name := hk
        simp [List.lookup_cons, hnk]
      · have hb : (n == k) = false := by simp [hn]
        simp [List.lookup_cons, hb, ih]

theorem ingest_cons (graphs : List (String × RingBuffer GoFloat)) (md : MetricData)
    (rest : List MetricData) :
    dashboardModel.ingest graphs (md :: rest)
      = dashboardModel.ingest (dashboardModel.ingestOne graphs md) rest := rfl

theorem finiteValuesFor_cons (n : String) (md : MetricData) (rest : List MetricData) :
    finiteValuesFor n (md :: rest)
      = if md.Name = n ∧ (md.Value.isNaN || md.Value.isInf) = false
        then md.Value :: finiteValuesFor n rest
        else finiteValuesFor n rest := rfl

/-- What a whole batch does to each tracked series: its buffer receives
exactly the batch's finite matching values, in batch order; untracked names
are untouched. -/
theorem ingest_lookup (data : List MetricData)
    (graphs : List (String × RingBuffer GoFloat)) (n : String) :
    (dashboardModel.ingest graphs data).lookup n
      = (graphs.lookup n).map (fun rb => rb.pushAll (finiteValuesFor n data)) := by
  induction data generalizing graphs with
  | nil =>
    simp only [dashboardModel.ingest, List.foldl_nil, finiteValuesFor]
    cases graphs.lookup n <;> simp [RingBuffer.pushAll_nil]
  | cons md rest ih =>
    rw [ingest_cons, ih]
    unfold dashboardModel.ingestOne
    by_cases hna : md.Name = n
    · subst hna
      cases hlk : graphs.lookup md.Name with
      | none =>
        simp only [hlk, Option.isSome_none, Bool.false_eq_true, if_false, hlk,
          Option.map_none']
      | some rb =>
        by_cases hf : (md.Value.isNaN || md.Value.isInf) = true
        · simp only [hlk, Option.isSome_some, if_true, hf, if_true]
          have hfv : finiteValuesFor md.Name (md :: rest)
              = finiteValuesFor md.Name rest := by
            rw [finiteValuesFor_cons, if_neg]
            intro hand
            rw [hand.2] at hf
            exact Bool.false_ne_true hf
          rw [hfv]
        · have hf' : (md.Value.isNaN || md.Value.isInf) = false := by
            revert hf
            cases md.Value.isNaN || md.Value.isInf <;> simp
          simp only [hlk, Option.isSome_some, if_true, hf', Bool.false_eq_true,
            if_false]
          rw [updateGraph_lookup, if_pos rfl, hlk]
          have hfv : finiteValuesFor md.Name (md :: rest)
              = md.Value :: finiteValuesFor md.Name rest := by
            rw [finiteValuesFor_cons, if_pos ⟨rfl, hf'⟩]
          rw [hfv]
          simp only [Option.map_some']
          rw [RingBuffer.pushAll_cons]
    · have hfv : finiteValuesFor n (md :: rest) = finiteValuesFor n rest := by
        rw [finiteValuesFor_cons, if_neg]
        intro hand
        exact hna hand.1
      rw [hfv]
      split
      · split
        · rfl
        · rw [updateGraph_lookup, if_neg (fun he => hna he.symm)]
      · rfl

theorem update_metrics_none (m : dashboardModel) (data : List MetricData) (now : Nat) :
    m.Update (Msg.metrics data none) now
      = ({ m with
            lastFetch := some now
            lastError := none
            graphs := dashboardModel.ingest m.graphs data }, Cmd.pollTick) := rfl

theorem update_metrics_err (m : dashboardModel) (data : List MetricData) (e : String)
    (now : Nat) :
    m.Update (Msg.metrics data (some e)) now
      = ({ m with lastFetch := some now, lastError := some e }, Cmd.pollTick) := rfl

theorem fetchMetricsAux_error (datas : List (List MetricData)) (e : String)
    (rest : List (Except String (List MetricData))) (acc : List MetricData) :
    fetchMetricsAux (datas.map Except.ok ++ Except.error e :: rest) acc = ([], some e) := by
  induction datas generalizing acc with
  | nil => rfl
  | cons d ds ih => exact ih (acc ++ d)

theorem fetchMetricsAux_ok (datas : List (List MetricData)) (acc : List MetricData) :
    fetchMetricsAux (datas.map Except.ok) acc = (acc ++ datas.flatten, none) := by
  induction datas generalizing acc with
  | nil => simp [fetchMetricsAux]
  | cons d ds ih =>
    show fetchMetricsAux (ds.map Except.ok) (acc ++ d) = _
    rw [ih (acc ++ d), List.flatten_cons, List.append_assoc]

/-- A value absent from a buffer's contents and from the pushed samples is
absent from the contents afterwards. -/
theorem RingBuffer.pushAll_not_mem {α : Type} [Inhabited α] {rb : RingBuffer α}
    (h : rb.Inv) {x : α} {xs : List α} (hx1 : x ∉ rb.Values) (hx2 : x ∉ xs) :
    x ∉ (rb.pushAll xs).Values := by
  intro hmem
  rw [(RingBuffer.pushAll_values xs rb h).1] at hmem
  rcases List.mem_append.1 (List.mem_of_mem_drop hmem) with h1 | h1
  · exact hx1 h1
  · exact hx2 h1

theorem not_mem_finiteValuesFor (n : String) (data : List MetricData) (v : GoFloat)
    (hv : (v.isNaN || v.isInf) = true) : v ∉ finiteValuesFor n data := by
  induction data with
  | nil => simp [finiteValuesFor]
  | cons md rest ih =>
    rw [finiteValuesFor_cons]
    split
    · rename_i hcond
      intro hmem
      rcases List.mem_cons.1 hmem with he | hmem
      · rw [he, hcond.2] at hv
        exact Bool.false_ne_true hv
      · exact ih hmem
    · exact ih

/-! Part: Claim theorems -/

/-- C1: a SeriesBuffer of capacity `C ≥ 1`, after pushing `N` values into an
initially empty buffer, has `Len() = C` and `Values()` equal to the last `C`
pushes in push order when `N ≥ C`, and `Len() = N` with `Values()` equal to
all `N` pushes when `N < C`; in particular with capacity 30 and pushes 0..30
inclusive, `Values()[0] = 1` and `Values()[29] = 30`. -/
theorem C1_ring_buffer_retention :
    (∀ (α : Type) [Inhabited α] (C : Nat), 1 ≤ C → ∀ xs : List α,
      (C ≤ xs.length →
        ((RingBuffer.New α C).pushAll xs).Len = C ∧
          ((RingBuffer.New α C).pushAll xs).Values = xs.drop (xs.length - C)) ∧
      (xs.length < C →
        ((RingBuffer.New α C).pushAll xs).Len = xs.length ∧
          ((RingBuffer.New α C).pushAll xs).Values = xs)) ∧
    ((RingBuffer.New ℚ 30).pushAll
        ((List.range 31).map (fun i => (i : ℚ)))).Values.getD 0 0 = 1 ∧
    ((RingBuffer.New ℚ 30).pushAll
        ((List.range 31).map (fun i => (i : ℚ)))).Values.getD 29 0 = 30 := by
  refine ⟨?_, by decide, by decide⟩
  intro α _ C hC xs
  obtain ⟨hv, hl⟩ := RingBuffer.new_pushAll_values C hC xs
  constructor
  · intro hle
    refine ⟨by rw [hl]; omega, ?_⟩
    rw [hv]
    rfl
  · intro hlt
    refine ⟨by rw [hl]; omega, ?_⟩
    rw [hv]
    exact lastN_of_le _ _ (by omega)

theorem C1_ring_buffer_retention_witness :
    1 ≤ 3 ∧ 3 ≤ ([(5 : ℚ), 6, 7, 8]).length ∧
      (((RingBuffer.New ℚ 3).pushAll [5, 6, 7, 8]).Len = 3 ∧
        ((RingBuffer.New ℚ 3).pushAll [5, 6, 7, 8]).Values
          = [(5 : ℚ), 6, 7, 8].drop ([(5 : ℚ), 6, 7, 8].length - 3)) :=
  ⟨by decide, by decide,
    (C1_ring_buffer_retention.1 ℚ 3 (by decide) [5, 6, 7, 8]).1 (by decide)⟩

/-- C2: a successfully delivered batch pushes, for each tracked series, exactly
its finite matching values in batch order; NaN and infinite values are dropped
before the buffer and appear in no buffer afterwards; unmatched names change
nothing and raise no error; a direct SeriesBuffer.Push of a non-finite value,
bypassing ingest, stores it verbatim. -/
theorem C2_ingest_drops_nonfinite (m : dashboardModel) (data : List MetricData)
    (now : Nat) (n : String) :
    (((m.Update (Msg.metrics data none) now).1).graphs.lookup n
        = (m.graphs.lookup n).map (fun rb => rb.pushAll (finiteValuesFor n data))) ∧
    (∀ v : GoFloat, (v.isNaN || v.isInf) = true → v ∉ finiteValuesFor n data) ∧
    (∀ rb : RingBuffer GoFloat, rb.Inv →
      ∀ v : GoFloat, (v.isNaN || v.isInf) = true → v ∉ rb.Values →
        v ∉ (rb.pushAll (finiteValuesFor n data)).Values) ∧
    (∀ (rb : RingBuffer GoFloat) (v : GoFloat), rb.Inv →
        (rb.Push v).Latest = some v) := by
  refine ⟨?_, fun v hv => not_mem_finiteValuesFor n data v hv, ?_, ?_⟩
  · rw [update_metrics_none]
    exact ingest_lookup data m.graphs n
  · intro rb hinv v hv hnot
    exact RingBuffer.pushAll_not_mem hinv hnot (not_mem_finiteValuesFor n data v hv)
  · intro rb v hinv
    exact rb.push_latest v hinv

theorem C2_ingest_drops_nonfinite_witness :
    (GoFloat.nan.isNaN || GoFloat.nan.isInf) = true ∧
      (RingBuffer.New GoFloat 3).Inv ∧
      GoFloat.nan ∉ (RingBuffer.New GoFloat 3).Values ∧
      GoFloat.nan ∉
        ((RingBuffer.New GoFloat 3).pushAll
          (finiteValuesFor "cpu"
            [⟨"cpu", GoFloat.nan, ""⟩, ⟨"cpu", GoFloat.finite 2, ""⟩])).Values ∧
      ((RingBuffer.New GoFloat 3).Push GoFloat.nan).Latest = some GoFloat.nan :=
  ⟨by decide, by decide, by decide,
    (C2_ingest_drops_nonfinite
        { selectedMetrics := ["cpu"]
          graphs := [("cpu", RingBuffer.New GoFloat 3)]
          width := 0, height := 0, interval := 1
          lastFetch := none, lastError := none }
        [⟨"cpu", GoFloat.nan, ""⟩, ⟨"cpu", GoFloat.finite 2, ""⟩] 0 "cpu").2.2.1
      (RingBuffer.New GoFloat 3) (by decide) GoFloat.nan (by decide) (by decide),
    (C2_ingest_drops_nonfinite
        { selectedMetrics := ["cpu"]
          graphs := [("cpu", RingBuffer.New GoFloat 3)]
          width := 0, height := 0, interval := 1
          lastFetch := none, lastError := none }
        [⟨"cpu", GoFloat.nan, ""⟩, ⟨"cpu", GoFloat.finite 2, ""⟩] 0 "cpu").2.2.2
      (RingBuffer.New GoFloat 3) GoFloat.nan (by decide)⟩

/-- C3: a FetchCompleted(error) sets the loop error, leaves every buffer
untouched and re-arms the clock; a following FetchCompleted(batch) clears the
error, ingests the batch exactly as a fresh success would, and re-arms the
clock. -/
theorem C3_error_then_success_recovers (m : dashboardModel)
    (d₀ data : List MetricData) (e : String) (now now' : Nat) :
    ((m.Update (Msg.metrics d₀ (some e)) now).1).lastError = some e ∧
    ((m.Update (Msg.metrics d₀ (some e)) now).1).graphs = m.graphs ∧
    (m.Update (Msg.metrics d₀ (some e)) now).2 = Cmd.pollTick ∧
    (((m.Update (Msg.metrics d₀ (some e)) now).1).Update
        (Msg.metrics data none) now').1.lastError = none ∧
    (((m.Update (Msg.metrics d₀ (some e)) now).1).Update
        (Msg.metrics data none) now').1.graphs = dashboardModel.ingest m.graphs data ∧
    (((m.Update (Msg.metrics d₀ (some e)) now).1).Update
        (Msg.metrics data none) now').2 = Cmd.pollTick :=
  ⟨rfl, rfl, rfl, rfl, rfl, rfl⟩

/-- C4: Init issues a fetch and arms the clock concurrently; a Tick issues a
fetch command and nothing else; the step function's returned command arms the
clock exactly on FetchCompleted events (success or error), never on Tick. -/
theorem C4_clock_rearm_discipline :
    (∀ m : dashboardModel, Cmd.issuesFetch m.Init = true ∧ Cmd.armsClock m.Init = true) ∧
    (∀ (m : dashboardModel) (t now : Nat),
      (m.Update (Msg.tick t) now).2 = Cmd.fetchMetrics) ∧
    (∀ (m : dashboardModel) (msg : Msg) (now : Nat),
      Cmd.armsClock (m.Update msg now).2 = true ↔
        ∃ data err, msg = Msg.metrics data err) := by
  refine ⟨fun m => ⟨rfl, rfl⟩, fun m t now => rfl, ?_⟩
  intro m msg now
  cases msg with
  | key s =>
    simp only [dashboardModel.Update]
    split <;> simp [Cmd.armsClock]
  | windowSize w h => simp [dashboardModel.Update, Cmd.armsClock]
  | tick t =>
    simp [dashboardModel.Update, dashboardModel.fetchMetrics, Cmd.armsClock]
  | metrics data err =>
    cases err with
    | none =>
      constructor
      · intro _
        exact ⟨data, none, rfl⟩
      · intro _
        rfl
    | some e =>
      constructor
      · intro _
        exact ⟨data, some e, rfl⟩
      · intro _
        rfl

/-- C6: every read query on an empty SeriesBuffer reports no result rather
than failing: Values() is empty and Latest, Min, Max, Avg are all absent. -/
theorem C6_empty_buffer_absent_results (rb : RingBuffer ℚ) (h : rb.Len = 0) :
    rb.Values = [] ∧ rb.Latest = none ∧ rb.Min = none ∧ rb.Max = none ∧
      rb.Avg = none := by
  have hs : rb.size = 0 := h
  exact ⟨by simp [RingBuffer.Values, hs], by simp [RingBuffer.Latest, hs],
    by simp [RingBuffer.Min, hs], by simp [RingBuffer.Max, hs],
    by simp [RingBuffer.Avg, hs]⟩

theorem C6_empty_buffer_absent_results_witness :
    (RingBuffer.New ℚ 30).Len = 0 ∧
      ((RingBuffer.New ℚ 30).Values = [] ∧ (RingBuffer.New ℚ 30).Latest = none ∧
        (RingBuffer.New ℚ 30).Min = none ∧ (RingBuffer.New ℚ 30).Max = none ∧
        (RingBuffer.New ℚ 30).Avg = none) :=
  ⟨rfl, C6_empty_buffer_absent_results (RingBuffer.New ℚ 30) rfl⟩

/-- C9: the fetch cycle loops over the sources in order and aborts on the
first failure, reporting that error with no data, so earlier sources' data in
the cycle is discarded and, since an errored completion ingests nothing, never
reaches a buffer; only if every source succeeds is the concatenation of all
sources' data, in source order, delivered. -/
theorem C9_first_source_error_aborts_cycle :
    (∀ (datas : List (List MetricData)) (e : String)
        (rest : List (Except String (List MetricData))),
      dashboardModel.fetchMetricsRun (datas.map Except.ok ++ Except.error e :: rest)
        = ([], some e)) ∧
    (∀ datas : List (List MetricData),
      dashboardModel.fetchMetricsRun (datas.map Except.ok) = (datas.flatten, none)) ∧
    (∀ (m : dashboardModel) (d : List MetricData) (e : String) (now : Nat),
      ((m.Update (Msg.metrics d (some e)) now).1).graphs = m.graphs) := by
  refine ⟨?_, ?_, fun m d e now => rfl⟩
  · intro datas e rest
    exact fetchMetricsAux_error datas e rest []
  · intro datas
    have h := fetchMetricsAux_ok datas []
    rwa [List.nil_append] at h

/-- C10: processing any FetchCompleted event, failure as well as success,
stamps the loop's lastFetch with the processing time. -/
theorem C10_lastFetch_on_every_completion (m : dashboardModel)
    (data : List MetricData) (err : Option String) (now : Nat) :
    ((m.Update (Msg.metrics data err) now).1).lastFetch = some now := by
  cases err <;> rfl

/-! Part: Facts about the statistics -/

theorem foldl_min_spec (l : List ℚ) (a : ℚ) :
    l.foldl (fun m v => if v < m then v else m) a ≤ a ∧
      (∀ x ∈ l, l.foldl (fun m v => if v < m then v else m) a ≤ x) ∧
      (l.foldl (fun m v => if v < m then v else m) a = a ∨
        l.foldl (fun m v => if v < m then v else m) a ∈ l) := by
  induction l generalizing a with
  | nil => simp
  | cons b t ih =>
    obtain ⟨ih1, ih2, ih3⟩ := ih (if b < a then b else a)
    simp only [List.foldl_cons]
    have hba : (if b < a then b else a) ≤ a := by split <;> linarith
    have hbb : (if b < a then b else a) ≤ b := by
      split
      · linarith
      · linarith [not_lt.1 (by assumption : ¬ b < a)]
    refine ⟨le_trans ih1 hba, ?_, ?_⟩
    · intro x hx
      rcases List.mem_cons.1 hx with he | hx
      · rw [he]
        exact le_trans ih1 hbb
      · exact ih2 x hx
    · rcases ih3 with he | he
      · rw [he]
        split
        · exact Or.inr (List.mem_cons_self _ _)
        · exact Or.inl rfl
      · exact Or.inr (List.mem_cons_of_mem _ he)

theorem foldl_max_spec (l : List ℚ) (a : ℚ) :
    a ≤ l.foldl (fun m v => if m < v then v else m) a ∧
      (∀ x ∈ l, x ≤ l.foldl (fun m v => if m < v then v else m) a) ∧
      (l.foldl (fun m v => if m < v then v else m) a = a ∨
        l.foldl (fun m v => if m < v then v else m) a ∈ l) := by
  induction l generalizing a with
  | nil => simp
  | cons b t ih =>
    obtain ⟨ih1, ih2, ih3⟩ := ih (if a < b then b else a)
    simp only [List.foldl_cons]
    have hba : a ≤ (if a < b then b else a) := by split <;> linarith
    have hbb : b ≤ (if a < b then b else a) := by
      split
      · linarith
      · linarith [not_lt.1 (by assumption : ¬ a < b)]
    refine ⟨le_trans hba ih1, ?_, ?_⟩
    · intro x hx
      rcases List.mem_cons.1 hx with he | hx
      · rw [he]
        exact le_trans hbb ih1
      · exact ih2 x hx
    · rcases ih3 with he | he
      · rw [he]
        split
        · exact Or.inr (List.mem_cons_self _ _)
        · exact Or.inl rfl
      · exact Or.inr (List.mem_cons_of_mem _ he)

/-- Min() of a non-empty buffer is a retained value no retained value is
below. -/
theorem RingBuffer.min_spec (rb : RingBuffer ℚ) (h : rb.size ≠ 0) :
    ∃ m, rb.Min = some m ∧ m ∈ rb.Values ∧ ∀ x ∈ rb.Values, m ≤ x := by
  have hne : rb.Values ≠ [] := by
    intro h0
    rw [← rb.values_length, h0] at h
    exact h rfl
  obtain ⟨hd, tl, he⟩ := List.exists_cons_of_ne_nil hne
  obtain ⟨h1, h2, h3⟩ := foldl_min_spec tl hd
  refine ⟨tl.foldl (fun m v => if v < m then v else m) hd, ?_, ?_, ?_⟩
  · unfold RingBuffer.Min
    rw [if_neg (by exact h), he]
    rfl
  · rw [he]
    rcases h3 with h3 | h3
    · rw [h3]
      exact List.mem_cons_self _ _
    · exact List.mem_cons_of_mem _ h3
  · intro x hx
    rw [he] at hx
    rcases List.mem_cons.1 hx with hx | hx
    · rw [hx]
      exact h1
    · exact h2 x hx

/-- Max() of a non-empty buffer is a retained value no retained value
exceeds. -/
theorem RingBuffer.max_spec (rb : RingBuffer ℚ) (h : rb.size ≠ 0) :
    ∃ m, rb.Max = some m ∧ m ∈ rb.Values ∧ ∀ x ∈ rb.Values, x ≤ m := by
  have hne : rb.Values ≠ [] := by
    intro h0
    rw [← rb.values_length, h0] at h
    exact h rfl
  obtain ⟨hd, tl, he⟩ := List.exists_cons_of_ne_nil hne
  obtain ⟨h1, h2, h3⟩ := foldl_max_spec tl hd
  refine ⟨tl.foldl (fun m v => if m < v then v else m) hd, ?_, ?_, ?_⟩
  · unfold RingBuffer.Max
    rw [if_neg (by exact h), he]
    rfl
  · rw [he]
    rcases h3 with h3 | h3
    · rw [h3]
      exact List.mem_cons_self _ _
    · exact List.mem_cons_of_mem _ h3
  · intro x hx
    rw [he] at hx
    rcases List.mem_cons.1 hx with hx | hx
    · rw [hx]
      exact h1
    · exact h2 x hx

/-- The head of a list sorted ascending is a least element. -/
theorem sorted_head_spec (l : List ℚ) (hs : List.Pairwise (· ≤ ·) l) (hne : l ≠ []) :
    l.getD 0 0 ∈ l ∧ ∀ x ∈ l, l.getD 0 0 ≤ x := by
  obtain ⟨hd, tl, he⟩ := List.exists_cons_of_ne_nil hne
  subst he
  rw [List.getD_cons_zero]
  refine ⟨List.mem_cons_self _ _, ?_⟩
  intro x hx
  rcases List.mem_cons.1 hx with hx | hx
  · rw [hx]
  · exact (List.pairwise_cons.1 hs).1 x hx

/-- The last element of a list sorted ascending is a greatest element. -/
theorem sorted_last_spec (l : List ℚ) (hs : List.Pairwise (· ≤ ·) l) (hne : l ≠ []) :
    l.getD (l.length - 1) 0 ∈ l ∧ ∀ x ∈ l, x ≤ l.getD (l.length - 1) 0 := by
  induction l with
  | nil => exact absurd rfl hne
  | cons hd tl ih =>
    rcases List.eq_nil_or_concat tl with he | _
    · subst he
      simp
    · have htne : tl ≠ [] := by
        rename_i hc
        obtain ⟨_, _, he⟩ := hc
        simp [he]
      obtain ⟨ih1, ih2⟩ := ih (List.pairwise_cons.1 hs).2 htne
      have hlen : (hd :: tl).length - 1 = (tl.length - 1) + 1 := by
        have := List.length_pos.2 htne
        simp only [List.length_cons]
        omega
      rw [hlen, List.getD_cons_succ]
      refine ⟨List.mem_cons_of_mem _ ih1, ?_⟩
      intro x hx
      rcases List.mem_cons.1 hx with hx | hx
      · rw [hx]
        exact (List.pairwise_cons.1 hs).1 _ ih1
      · exact ih2 x hx

theorem mergeSort_pairwise_le (l : List ℚ) :
    List.Pairwise (· ≤ ·) (l.mergeSort (fun a b => a ≤ b)) := by
  have h := @List.sorted_mergeSort ℚ (fun a b : ℚ => decide (a ≤ b))
    (fun a b c hab hbc => by
      simp only [decide_eq_true_iff] at *
      linarith)
    (fun a b => by
      simp only [Bool.or_eq_true, decide_eq_true_iff]
      exact le_total a b)
    l
  exact h.imp (fun hab => by simpa using hab)

/-- C7: on every non-empty buffer, the 0th percentile is Min() and the 100th
percentile is Max(). -/
theorem C7_percentile_extremes (rb : RingBuffer ℚ) (h : rb.Len ≠ 0) :
    rb.Percentile 0 = rb.Min ∧ rb.Percentile 100 = rb.Max := by
  have hs : rb.size ≠ 0 := h
  have hperm := List.mergeSort_perm rb.Values (fun a b => a ≤ b)
  have hpw := mergeSort_pairwise_le rb.Values
  have hlen : (rb.Values.mergeSort (fun a b => a ≤ b)).length = rb.size := by
    rw [hperm.length_eq, rb.values_length]
  have hne : rb.Values.mergeSort (fun a b => a ≤ b) ≠ [] := by
    intro h0
    rw [h0] at hlen
    exact hs hlen.symm
  constructor
  · obtain ⟨m, hm, hmmem, hmle⟩ := rb.min_spec hs
    obtain ⟨hhmem, hhle⟩ := sorted_head_spec _ hpw hne
    have heq : (rb.Values.mergeSort (fun a b => a ≤ b)).getD 0 0 = m :=
      le_antisymm (hhle m (hperm.mem_iff.2 hmmem)) (hmle _ (hperm.mem_iff.1 hhmem))
    unfold RingBuffer.Percentile
    rw [if_neg (by push_neg; exact ⟨le_refl 0, by norm_num, hs⟩)]
    simp only [zero_div, zero_mul, Int.floor_zero, Int.ceil_zero, Int.toNat_zero,
      Int.cast_zero, sub_zero, mul_one, mul_zero, add_zero]
    rw [heq, hm]
  · obtain ⟨m, hm, hmmem, hmle⟩ := rb.max_spec hs
    obtain ⟨hhmem, hhle⟩ := sorted_last_spec _ hpw hne
    have heq : (rb.Values.mergeSort (fun a b => a ≤ b)).getD
        ((rb.Values.mergeSort (fun a b => a ≤ b)).length - 1) 0 = m :=
      le_antisymm (hmle _ (hperm.mem_iff.1 hhmem)) (hhle m (hperm.mem_iff.2 hmmem))
    unfold RingBuffer.Percentile
    rw [if_neg (by push_neg; exact ⟨by norm_num, le_refl 100, hs⟩)]
    have h100 : (100 : ℚ) / 100 = 1 := by norm_num
    have hn1 : 1 ≤ (rb.Values.mergeSort (fun a b => a ≤ b)).length := by
      rw [hlen]
      omega
    have hcast : ((rb.Values.mergeSort (fun a b => a ≤ b)).length : ℚ) - 1
        = (((rb.Values.mergeSort (fun a b => a ≤ b)).length - 1 : ℕ) : ℚ) := by
      rw [Nat.cast_sub hn1]
      norm_num
    simp only [h100, one_mul, hcast, Int.floor_natCast, Int.ceil_natCast,
      Int.toNat_natCast, Int.cast_natCast, sub_self, mul_zero, add_zero, sub_zero,
      mul_one]
    rw [heq, hm]

theorem C7_percentile_extremes_witness :
    ((RingBuffer.New ℚ 30).pushAll [3, 1, 2]).Len ≠ 0 ∧
      (((RingBuffer.New ℚ 30).pushAll [3, 1, 2]).Percentile 0
          = ((RingBuffer.New ℚ 30).pushAll [3, 1, 2]).Min ∧
        ((RingBuffer.New ℚ 30).pushAll [3, 1, 2]).Percentile 100
          = ((RingBuffer.New ℚ 30).pushAll [3, 1, 2]).Max) :=
  ⟨by decide, C7_percentile_extremes ((RingBuffer.New ℚ 30).pushAll [3, 1, 2]) (by decide)⟩

/-- C8: only Push changes a buffer: each read method's state-passing
translation leaves the receiver untouched and returns a value computed from
the state only, while Push's effect on the retained contents is exactly the
one-element extension; the sequence Values() returned before a Push is a copy
whose value is unaffected by the push. -/
theorem C8_only_push_mutates (rb : RingBuffer ℚ) (v : ℚ) :
    rb.ValuesSt.1 = rb ∧ rb.LenSt.1 = rb ∧ rb.LatestSt.1 = rb ∧ rb.MinSt.1 = rb ∧
    rb.MaxSt.1 = rb ∧ rb.AvgSt.1 = rb ∧ rb.TrendSt.1 = rb ∧
    rb.ValuesSt.2 = rb.Values ∧
    (rb.Inv → (rb.PushSt v).1.Values = lastN rb.capacity (rb.ValuesSt.2 ++ [v]) ∧
      rb.ValuesSt.2 = rb.Values) := by
  refine ⟨rfl, rfl, rfl, rfl, rfl, rfl, rfl, rfl, ?_⟩
  intro h
  exact ⟨rb.push_values v h, rfl⟩

theorem C8_only_push_mutates_witness :
    ((RingBuffer.New ℚ 3).pushAll [1, 2]).Inv ∧
      ((((RingBuffer.New ℚ 3).pushAll [1, 2]).PushSt 7).1.Values
          = lastN ((RingBuffer.New ℚ 3).pushAll [1, 2]).capacity
              (((RingBuffer.New ℚ 3).pushAll [1, 2]).ValuesSt.2 ++ [7]) ∧
        ((RingBuffer.New ℚ 3).pushAll [1, 2]).ValuesSt.2
          = ((RingBuffer.New ℚ 3).pushAll [1, 2]).Values) :=
  ⟨by decide,
    (C8_only_push_mutates ((RingBuffer.New ℚ 3).pushAll [1, 2]) 7).2.2.2.2.2.2.2.2
      (by decide)⟩

/-- The source's window computation equals the spec's
`w = min(3, n/2), at least 1` once the buffer has at least 2 elements. -/
theorem trend_window_eq (n : Nat) (hn : 2 ≤ n) :
    (if (if n < 3 * 2 then n / 2 else 3) < 1 then 1
      else if n < 3 * 2 then n / 2 else 3)
      = max (min 3 (n / 2)) 1 := by
  split_ifs <;> omega

/-- The source's threshold computation equals the spec's
`max(0.05 * firstMean, 0.01)`. -/
theorem trend_threshold_eq (f : ℚ) :
    (if f * (5 / 100) < 1 / 100 then 1 / 100 else f * (5 / 100))
      = max (5 / 100 * f) (1 / 100) := by
  rw [mul_comm f (5 / 100), max_def]
  split_ifs <;> first | rfl | linarith

/-- Trend() computes exactly the spec's formula. -/
theorem RingBuffer.trend_eq_trendSpec (rb : RingBuffer ℚ) :
    rb.Trend = rb.TrendSpec := by
  unfold RingBuffer.Trend RingBuffer.TrendSpec RingBuffer.Len
  by_cases h2 : rb.size < 2
  · rw [if_pos h2, if_pos h2]
  · have hn : 2 ≤ rb.Values.length := by
      rw [rb.values_length]
      omega
    simp only [if_neg h2]
    rw [trend_window_eq rb.Values.length hn, trend_threshold_eq]

theorem sum_drop_eq_sum_take_const (l : List ℚ) (c : ℚ) (h : ∀ v ∈ l, v = c)
    (w : Nat) (hw : w ≤ l.length) :
    (l.drop (l.length - w)).sum = (l.take w).sum := by
  rw [List.sum_eq_card_nsmul (l.drop (l.length - w)) c
      (fun x hx => h x (List.drop_subset _ _ hx)),
    List.sum_eq_card_nsmul (l.take w) c (fun x hx => h x (List.take_subset _ _ hx)),
    List.length_take, List.length_drop]
  congr 1
  omega

theorem trend_branch_zero (a t0 : ℚ) :
    (if a - a > (if t0 < 1 / 100 then 1 / 100 else t0) then (1 : Int)
      else if a - a < -(if t0 < 1 / 100 then 1 / 100 else t0) then -1 else 0) = 0 := by
  rw [sub_self a]
  have hc : (0 : ℚ) < 1 / 100 := by norm_num
  split_ifs <;> first | rfl | linarith

/-- A buffer whose retained values are all equal reports a flat trend. -/
theorem RingBuffer.trend_const_flat (rb : RingBuffer ℚ) (c : ℚ)
    (h : ∀ v ∈ rb.Values, v = c) : rb.Trend = 0 := by
  unfold RingBuffer.Trend
  by_cases h2 : rb.size < 2
  · rw [if_pos h2]
  · simp only [if_neg h2]
    generalize hgw : (if (if rb.Values.length < 3 * 2 then rb.Values.length / 2 else 3) < 1
        then 1
        else if rb.Values.length < 3 * 2 then rb.Values.length / 2 else 3) = w
    have hwle : w ≤ rb.Values.length := by
      rw [← hgw]
      have hn : 2 ≤ rb.Values.length := by
        rw [rb.values_length]
        omega
      split_ifs <;> omega
    rw [sum_drop_eq_sum_take_const rb.Values c h w hwle]
    exact trend_branch_zero _ _

/-- C5 (amended): Trend() follows the spec's formula exactly: with fewer than
2 elements it is flat, otherwise it compares the means of the first and last
`w = min(3, n/2)` (at least 1) retained values against the threshold
`max(0.05 * firstMean, 0.01)`, returning up/down/flat as the claim states.
Consequently a constant sequence is flat, and increasing or decreasing
sequences whose window-mean difference clears the threshold give up or down,
e.g. 1,2,3,4,5 is up and 5,4,3,2,1 is down; but a strictly increasing or
decreasing sequence whose difference stays within the threshold is flat
(see the counterexample), so the claim's unconditional increasing-to-up and
decreasing-to-down consequences do not hold. -/
theorem C5_trend_two_window_formula :
    (∀ rb : RingBuffer ℚ, rb.Trend = rb.TrendSpec) ∧
    (∀ (rb : RingBuffer ℚ) (c : ℚ), (∀ v ∈ rb.Values, v = c) → rb.Trend = 0) ∧
    ((RingBuffer.New ℚ 30).pushAll [1, 2, 3, 4, 5]).Trend = 1 ∧
    ((RingBuffer.New ℚ 30).pushAll [5, 4, 3, 2, 1]).Trend = -1 := by
  refine ⟨RingBuffer.trend_eq_trendSpec, RingBuffer.trend_const_flat, ?_, ?_⟩
  · have hv : ((RingBuffer.New ℚ 30).pushAll [1, 2, 3, 4, 5]).Values
        = [1, 2, 3, 4, 5] := by decide
    have hsz : ¬ ((RingBuffer.New ℚ 30).pushAll [1, 2, 3, 4, 5]).size < 2 := by decide
    unfold RingBuffer.Trend
    simp only [if_neg hsz, hv]
    norm_num
  · have hv : ((RingBuffer.New ℚ 30).pushAll [5, 4, 3, 2, 1]).Values
        = [5, 4, 3, 2, 1] := by decide
    have hsz : ¬ ((RingBuffer.New ℚ 30).pushAll [5, 4, 3, 2, 1]).size < 2 := by decide
    unfold RingBuffer.Trend
    simp only [if_neg hsz, hv]
    norm_num

theorem C5_trend_two_window_formula_witness :
    (∀ v ∈ ((RingBuffer.New ℚ 30).pushAll [7, 7, 7]).Values, v = 7) ∧
      ((RingBuffer.New ℚ 30).pushAll [7, 7, 7]).Trend = 0 :=
  ⟨by decide,
    C5_trend_two_window_formula.2.1 ((RingBuffer.New ℚ 30).pushAll [7, 7, 7]) 7
      (by decide)⟩

/-- C5 counterexample: 100,101,102,103,104 is a strictly increasing sequence
of five values, yet after pushing it into a fresh capacity-30 buffer Trend()
is 0 (flat), not up: the window-mean difference 3 does not exceed the
threshold 0.05 * 100.5 = 5.025. -/
theorem C5_trend_increasing_not_up_counterexample :
    List.Pairwise (· < ·) ([100, 101, 102, 103, 104] : List ℚ) ∧
    ((RingBuffer.New ℚ 30).pushAll [100, 101, 102, 103, 104]).Values
      = [100, 101, 102, 103, 104] ∧
    ((RingBuffer.New ℚ 30).pushAll [100, 101, 102, 103, 104]).Trend = 0 := by
  refine ⟨by decide, by decide, ?_⟩
  have hv : ((RingBuffer.New ℚ 30).pushAll [100, 101, 102, 103, 104]).Values
      = [100, 101, 102, 103, 104] := by decide
  have hsz : ¬ ((RingBuffer.New ℚ 30).pushAll [100, 101, 102, 103, 104]).size < 2 := by
    decide
  unfold RingBuffer.Trend
  simp only [if_neg hsz, hv]
  norm_num
